import Mathlib

/-!
Verification of the portfolio time-series aggregation engine of the
dashboard page (`DashboardPage.tsx`).

Modeling conventions, chosen to mirror the TypeScript source:

* Monetary values are rationals (`ℚ`); the source uses JS numbers for exact
  decimal amounts and the claims are about exact arithmetic identities.
* A parsed date is a single natural-number timestamp `t`.  The calendar month
  containing `t` is `monthOf t = t / monthBase`: timestamps are modeled at a
  resolution of `monthBase` ticks per calendar month, so ordering timestamps
  refines ordering months, exactly as with real dates.  A month index `m`
  encodes year and month-of-year jointly (`m = 12 * year + monthOfYear`), so
  the source's `` `${getFullYear()}-${getMonth()}` `` keys become plain
  month indexes, and JS `Date` values normalized to the first of a month
  (`setDate(1); setHours(0,0,0,0)`) are represented by their month index.
* An unparseable date string (`Number.isNaN(new Date(s).getTime())` in the
  source) is modeled as `controlDate = none`.
* A JS `Map` is modeled as an association list in insertion order:
  `Map.set` on a present key updates in place, on an absent key appends.
* `Array.prototype.sort` is a stable sort on a total preorder; it is modeled
  by `List.insertionSort`, which is stable for the same preorder.
* The presentational fields `formattedDate` / `formattedValue` (pt-BR locale
  strings) are omitted from the derived points: no claim concerns them and
  they are produced by locale formatters external to the aggregation logic.
-/

/-- Ticks per calendar month in the timestamp model. -/
def monthBase : Nat := 10000

/-- Calendar month index containing timestamp `t`. -/
def monthOf (t : Nat) : Nat := t / monthBase

/-- Quarter-start month index for month `m`: the source computes
`Math.floor(getMonth() / 3) * 3` within the year, which on month indexes is
`m - m % 3` (year boundaries are quarter boundaries). -/
def quarterOf (m : Nat) : Nat := m - m % 3

/-- One value-snapshot record (`AssetControl` in the source): a possibly
unparseable observation date and the recorded total value. -/
structure AssetControl where
  controlDate : Option Nat
  currentTotalValue : ℚ
deriving DecidableEq, Repr

/-- A derived chart point: month index plus value (display strings omitted,
see the module comment). -/
structure SeriesPoint where
  date : Nat
  value : ℚ
deriving DecidableEq, Repr

/-- Association-list lookup by key, the model of `Map.get`. -/
def lookupA {β : Type} (l : List (Nat × β)) (k : Nat) : Option β :=
  (l.find? fun p => decide (p.1 = k)).map (·.2)

/-- The model of `if (!existing || better(v, existing)) map.set(k, v)`:
update the entry in place if the key is present, else append. -/
def upsert {β : Type} (better : β → β → Bool) (k : Nat) (v : β) :
    List (Nat × β) → List (Nat × β)
  | [] => [(k, v)]
  | p :: rest =>
    if p.1 = k then (p.1, if better v p.2 then v else p.2) :: rest
    else p :: upsert better k v rest

/-- Folding a stream of keyed items through `upsert`, the model of the
source's `records.forEach(... map.set ...)` accumulation loops. -/
def foldUpsert {β : Type} (better : β → β → Bool) (items : List (Nat × β)) :
    List (Nat × β) :=
  items.foldl (fun acc kv => upsert better kv.1 kv.2 acc) []

/-- Keep-the-larger-value policy: the source's
`control.currentTotalValue > existing.value`. -/
def valueBetter (a b : ℚ) : Bool := decide (b < a)

/-- Keyed items of the quarterly bucketing loop: each parseable record is
assigned to the quarter-start month of its date; unparseable records are
skipped (`if (Number.isNaN(...)) return`). -/
def quarterItems (records : List AssetControl) : List (Nat × ℚ) :=
  records.filterMap fun r =>
    r.controlDate.map fun t => (quarterOf (monthOf t), r.currentTotalValue)

/-- The quarterly peak bucket map (`quarterMap` in the source). -/
def quarterFold (records : List AssetControl) : List (Nat × ℚ) :=
  foldUpsert valueBetter (quarterItems records)

instance {β : Type} : IsTotal (Nat × β) (fun a b => a.1 ≤ b.1) :=
  ⟨fun a b => Nat.le_total a.1 b.1⟩

instance {β : Type} : IsTrans (Nat × β) (fun a b => a.1 ≤ b.1) :=
  ⟨fun _ _ _ h h2 => Nat.le_trans h h2⟩

/-- Ascending stable sort of keyed entries by key, the model of
`.sort((a, b) => a.date.getTime() - b.date.getTime())` on per-period maps. -/
def sortByKey {β : Type} (l : List (Nat × β)) : List (Nat × β) :=
  List.insertionSort (fun a b => a.1 ≤ b.1) l

/-- The sorted quarterly peak buckets (`quarterlyData` before the
current-value step). -/
def quarterBuckets (records : List AssetControl) : List SeriesPoint :=
  (sortByKey (quarterFold records)).map fun p => ⟨p.1, p.2⟩

/-- The current-value step of `buildQuarterlySeries`: if the last bucket is
in the current calendar month, replace it with the current value at `now`,
otherwise append a new point for the current value at `now`. -/
def quarterlyAttach (quarterlyData : List SeriesPoint) (cv : ℚ) (now : Nat) :
    List SeriesPoint :=
  match quarterlyData.getLast? with
  | some lastPoint =>
    if lastPoint.date = now then quarterlyData.dropLast ++ [⟨now, cv⟩]
    else quarterlyData ++ [⟨now, cv⟩]
  | none => quarterlyData ++ [⟨now, cv⟩]

/-- The quarterly series builder (`buildQuarterlySeries`).  `now` is the
current calendar month index (the source's `new Date()` floored to the first
of the month).  Note `currentValue` is
`fallbackValue ?? records[records.length - 1]?.currentTotalValue ?? null`:
with no fallback it falls back to the last record's value. -/
def buildQuarterlySeries (records : List AssetControl) (fallbackValue : Option ℚ)
    (now : Nat) : List SeriesPoint :=
  if records.isEmpty then
    match fallbackValue with
    | none => []
    | some v => [⟨now, v⟩]
  else
    let quarterlyData := quarterBuckets records
    let currentValue : Option ℚ :=
      match fallbackValue with
      | some v => some v
      | none => (records.getLast?).map (·.currentTotalValue)
    match currentValue with
    | none => quarterlyData
    | some cv => quarterlyAttach quarterlyData cv now

/-- Keyed items of the monthly bucketing loop of `buildMonthlySeries`. -/
def monthItems (records : List AssetControl) : List (Nat × ℚ) :=
  records.filterMap fun r =>
    r.controlDate.map fun t => (monthOf t, r.currentTotalValue)

/-- The per-month peak map (`monthMap` in the source). -/
def monthFold (records : List AssetControl) : List (Nat × ℚ) :=
  foldUpsert valueBetter (monthItems records)

/-- The per-month map after merging the live fallback value into the current
month (`if (!existing || fallbackValue > existing.value) set(currentKey, ...)`). -/
def monthEntries (records : List AssetControl) (fallbackValue : Option ℚ)
    (now : Nat) : List (Nat × ℚ) :=
  match fallbackValue with
  | none => monthFold records
  | some fv => upsert valueBetter now fv (monthFold records)

/-- The source's `sortedEntries`. -/
def sortedMonthEntries (records : List AssetControl) (fallbackValue : Option ℚ)
    (now : Nat) : List (Nat × ℚ) :=
  sortByKey (monthEntries records fallbackValue now)

/-- The forward-fill loop of `buildMonthlySeries`: at each of `r` successive
months starting at `cur`, consume the (sorted) entries up to that month,
carry the last consumed value as `latest`, and emit a point whenever a value
is available.  The two `while` loops of the source are maximal-prefix
consumptions, i.e. `takeWhile`/`dropWhile`. -/
def fillLoop : List (Nat × ℚ) → Option ℚ → Nat → Nat → List SeriesPoint
  | _, _, _, 0 => []
  | entries, latest, cur, r + 1 =>
    match (entries.takeWhile fun e => e.1 ≤ cur).getLast? with
    | some e =>
      ⟨cur, e.2⟩ ::
        fillLoop (entries.dropWhile fun e => e.1 ≤ cur) (some e.2) (cur + 1) r
    | none =>
      match latest with
      | none => fillLoop (entries.dropWhile fun e => e.1 ≤ cur) none (cur + 1) r
      | some v =>
        ⟨cur, v⟩ ::
          fillLoop (entries.dropWhile fun e => e.1 ≤ cur) (some v) (cur + 1) r

/-- The trailing-months series builder (`buildMonthlySeries`).  `now` is the
current month index; the window starts `months - 1` months earlier (the
model assumes `now` is at least `months - 1`, true of every real date). -/
def buildMonthlySeries (records : List AssetControl) (fallbackValue : Option ℚ)
    (now : Nat) (months : Nat) : List SeriesPoint :=
  if (sortedMonthEntries records fallbackValue now).isEmpty then []
  else
    fillLoop
      ((sortedMonthEntries records fallbackValue now).dropWhile
        fun e => e.1 < now - (months - 1))
      ((((sortedMonthEntries records fallbackValue now).takeWhile
          fun e => e.1 < now - (months - 1)).getLast?).map (·.2))
      (now - (months - 1)) months

/-- One current asset-value row (`Asset` in the source, restricted to the
fields the distribution uses); `current_value` may be absent (`?? 0`). -/
structure Asset where
  category : Nat
  current_value : Option ℚ
deriving DecidableEq, Repr

/-- One entry of the category distribution (`{ category, rawValue, percent }`,
the display `name` omitted). -/
structure ShareItem where
  category : Nat
  rawValue : ℚ
  percent : ℚ
deriving DecidableEq, Repr

/-- The model of `Number(x.toFixed(2))`: round to two decimal places, halves toward
positive infinity (`round` is `⌊x + 1/2⌋`). -/
def round2 (q : ℚ) : ℚ := ((round (q * 100) : ℤ) : ℚ) / 100

/-- The model of `acc[category] = (acc[category] ?? 0) + value` on an object
in key insertion order. -/
def addToCat (k : Nat) (v : ℚ) : List (Nat × ℚ) → List (Nat × ℚ)
  | [] => [(k, v)]
  | p :: rest => if p.1 = k then (p.1, p.2 + v) :: rest else p :: addToCat k v rest

/-- Per-category sums of current asset values (`totals` in the source). -/
def catTotals (assets : List Asset) : List (Nat × ℚ) :=
  assets.foldl (fun acc a => addToCat a.category (a.current_value.getD 0) acc) []

instance : IsTotal ShareItem (fun a b => b.rawValue ≤ a.rawValue) :=
  ⟨fun a b => le_total b.rawValue a.rawValue⟩

instance : IsTrans ShareItem (fun a b => b.rawValue ≤ a.rawValue) :=
  ⟨fun _ _ _ h h2 => le_trans h2 h⟩

/-- The distribution calculator (`categoryDistribution`): group per-asset
values by category, guard the total, compute rounded percentages, drop
non-positive entries, sort descending by raw value.  `currentTotalOpt` is
the live total (`currentTotal?.current_total`), `totalValue` the separately
derived overall total it falls back to. -/
def categoryDistribution (assets : List Asset) (currentTotalOpt : Option ℚ)
    (totalValue : ℚ) : List ShareItem :=
  let totalAmount := currentTotalOpt.getD totalValue
  if assets.isEmpty ∨ totalAmount ≤ 0 then []
  else
    List.insertionSort (fun a b => b.rawValue ≤ a.rawValue)
      ((((catTotals assets).filter fun p => 0 < p.2).map fun p =>
          (⟨p.1, p.2, round2 (p.2 / totalAmount * 100)⟩ : ShareItem)).filter
        fun i => 0 < i.percent)

/-- The hidden-category renormalization (`visibleCategoryDistribution`):
drop hidden categories, recompute percentages against the sum of the
remaining raw values, empty when that sum is not positive. -/
def visibleCategoryDistribution (distribution : List ShareItem)
    (hidden : Nat → Bool) : List ShareItem :=
  let visible := distribution.filter fun i => !hidden i.category
  let visibleTotal := visible.foldl (fun acc i => acc + i.rawValue) 0
  if visibleTotal ≤ 0 then []
  else visible.map fun i => ⟨i.category, i.rawValue, round2 (i.rawValue / visibleTotal * 100)⟩

/-- One cash-movement record (`AssetTransaction`): `isTopUp` is
`type === 'TOP_UP'`. -/
structure AssetTransaction where
  category : Nat
  transactionDate : Option Nat
  amount : ℚ
  isTopUp : Bool
deriving DecidableEq, Repr

/-- The model of `map.set(key, (map.get(key) ?? 0) + amount)` on a
`(category, month)` key. -/
def netUpd (k : Nat × Nat) (amt : ℚ) :
    List ((Nat × Nat) × ℚ) → List ((Nat × Nat) × ℚ)
  | [] => [(k, amt)]
  | p :: rest => if p.1 = k then (p.1, p.2 + amt) :: rest else p :: netUpd k amt rest

/-- The net cash-flow map (`transactionNetByCategoryMonth`): transactions
with unparseable dates are skipped; a top-up adds its amount, a withdrawal
subtracts it. -/
def netFold (transactions : List AssetTransaction) : List ((Nat × Nat) × ℚ) :=
  transactions.foldl
    (fun acc tx =>
      match tx.transactionDate with
      | none => acc
      | some t =>
        netUpd (tx.category, monthOf t) (if tx.isTopUp then tx.amount else -tx.amount) acc)
    []

/-- The model of `map.get(key) ?? 0` on the net cash-flow map. -/
def lookupNet (m : List ((Nat × Nat) × ℚ)) (k : Nat × Nat) : ℚ :=
  ((m.find? fun p => decide (p.1 = k)).map (·.2)).getD 0

/-- Month-over-month performance result (`null` fields mean
"insufficient data", never zero). -/
structure CategoryPerformance where
  percentChange : Option ℚ
  currentValue : Option ℚ
  deltaValue : Option ℚ
deriving DecidableEq, Repr

/-- Sort key of the performance pre-sort
(`new Date(a.controlDate).getTime()`; unparseable dates compare as a fixed
number, which cannot affect the month map since they are skipped there). -/
def tsKey (r : AssetControl) : Nat := (r.controlDate).getD 0

instance : IsTotal AssetControl (fun a b => tsKey a ≤ tsKey b) :=
  ⟨fun a b => Nat.le_total (tsKey a) (tsKey b)⟩

instance : IsTrans AssetControl (fun a b => tsKey a ≤ tsKey b) :=
  ⟨fun _ _ _ h h2 => Nat.le_trans h h2⟩

/-- The source's `sortedEntries` of the performance calculator. -/
def perfSortedControls (entries : List AssetControl) : List AssetControl :=
  List.insertionSort (fun a b => tsKey a ≤ tsKey b) entries

/-- Keyed items of the performance month map: month index to
`(timestamp, value)` of each parseable record, in sorted order. -/
def perfItems (entries : List AssetControl) : List (Nat × (Nat × ℚ)) :=
  (perfSortedControls entries).filterMap fun r =>
    r.controlDate.map fun t => (monthOf t, (t, r.currentTotalValue))

/-- Keep-the-later-timestamp policy of the performance month map
(`timestamp > existing.timestamp`); note: the later observation wins, not
the larger value. -/
def tsBetter (a b : Nat × ℚ) : Bool := decide (b.1 < a.1)

/-- The performance month map (`monthMap` of `categoryPerformance`). -/
def perfMonthFold (entries : List AssetControl) : List (Nat × (Nat × ℚ)) :=
  foldUpsert tsBetter (perfItems entries)

instance : IsTotal (Nat × (Nat × ℚ)) (fun a b => a.2.1 ≤ b.2.1) :=
  ⟨fun a b => Nat.le_total a.2.1 b.2.1⟩

instance : IsTrans (Nat × (Nat × ℚ)) (fun a b => a.2.1 ≤ b.2.1) :=
  ⟨fun _ _ _ h h2 => Nat.le_trans h h2⟩

/-- The chronological per-month series of the performance calculator
(`monthlySeries`), sorted by kept timestamp. -/
def perfMonthlySeries (entries : List AssetControl) : List (Nat × (Nat × ℚ)) :=
  List.insertionSort (fun a b => a.2.1 ≤ b.2.1) (perfMonthFold entries)

/-- The performance calculator (`categoryPerformance`) for one tracked
category: `entries` are the category's snapshot records,
`distributionValue` is `categoryDistributionMap.get(key)`, `transactions`
feed the net cash-flow map. -/
def categoryPerformance (category : Nat) (entries : List AssetControl)
    (distributionValue : Option ℚ) (transactions : List AssetTransaction) :
    CategoryPerformance :=
  if entries.isEmpty then ⟨none, distributionValue, none⟩
  else
    let ms := perfMonthlySeries entries
    match ms.getLast? with
    | none => ⟨none, distributionValue, none⟩
    | some cur =>
      let currentValue : Option ℚ :=
        match distributionValue with
        | some v => some v
        | none => some cur.2.2
      match ms.dropLast.getLast? with
      | none => ⟨none, currentValue, none⟩
      | some prev =>
        let currentNet := lookupNet (netFold transactions) (category, cur.1)
        let previousNet := lookupNet (netFold transactions) (category, prev.1)
        let adjustedCurrent := cur.2.2 - currentNet
        let adjustedPrevious := prev.2.2 - previousNet
        let deltaValue := adjustedCurrent - adjustedPrevious
        let percentChange : Option ℚ :=
          if adjustedPrevious ≠ 0 then some (deltaValue / adjustedPrevious * 100)
          else none
        ⟨percentChange, currentValue, some deltaValue⟩

/-- Stated from the claim's wording (for comparison with the code): the
maximum snapshot value recorded in month `m`. -/
def specMonthMaxValue (entries : List AssetControl) (m : Nat) : Option ℚ :=
  (entries.filterMap fun r =>
    r.controlDate.bind fun t =>
      if monthOf t = m then some r.currentTotalValue else none).max?

/-- A transaction of category `c` dated (parseably) in month `m`. -/
def txMatches (c m : Nat) (tx : AssetTransaction) : Bool :=
  decide (tx.category = c) && tx.transactionDate.any fun t => decide (monthOf t = m)

/-- Sum of top-up amounts for category `c` in month `m` (claim wording). -/
def topUpSum (txs : List AssetTransaction) (c m : Nat) : ℚ :=
  ((txs.filter fun tx => txMatches c m tx && tx.isTopUp).map (·.amount)).sum

/-- Sum of withdrawal amounts for category `c` in month `m` (claim wording). -/
def withdrawSum (txs : List AssetTransaction) (c m : Nat) : ℚ :=
  ((txs.filter fun tx => txMatches c m tx && !tx.isTopUp).map (·.amount)).sum

/-! ### Association-list lemmas -/

theorem lookupA_cons {β : Type} (p : Nat × β) (l : List (Nat × β)) (k : Nat) :
    lookupA (p :: l) k = if p.1 = k then some p.2 else lookupA l k := by
  by_cases h : p.1 = k <;> simp [lookupA, List.find?_cons, h]

theorem lookupA_upsert {β : Type} (better : β → β → Bool) (k : Nat) (v : β)
    (l : List (Nat × β)) (k2 : Nat) :
    lookupA (upsert better k v l) k2 =
      if k = k2 then
        match lookupA l k2 with
        | none => some v
        | some w => some (if better v w then v else w)
      else lookupA l k2 := by
  induction l with
  | nil =>
    by_cases h : k = k2 <;> simp [upsert, lookupA_cons, lookupA, h]
  | cons p rest ih =>
    by_cases hp : p.1 = k
    · by_cases h2 : p.1 = k2
      · have hk : k = k2 := hp.symm.trans h2
        simp [upsert, hp, lookupA_cons, h2, hk]
      · have hk : ¬ k = k2 := fun h => h2 (hp.trans h)
        simp [upsert, hp, lookupA_cons, h2, hk]
    · by_cases h2 : p.1 = k2
      · have hk : ¬ k = k2 := fun h => hp (h2.trans h.symm)
        have hk2 : ¬ k2 = k := fun h => hk h.symm
        simp [upsert, hp, lookupA_cons, h2, hk, hk2]
      · simp [upsert, hp, lookupA_cons, h2, ih]

theorem upsert_map_fst {β : Type} (better : β → β → Bool) (k : Nat) (v : β)
    (l : List (Nat × β)) :
    (upsert better k v l).map Prod.fst =
      if k ∈ l.map Prod.fst then l.map Prod.fst else l.map Prod.fst ++ [k] := by
  induction l with
  | nil => simp [upsert]
  | cons p rest ih =>
    by_cases hp : p.1 = k
    · simp [upsert, hp]
    · have : ¬ k = p.1 := fun h => hp h.symm
      by_cases hm : k ∈ rest.map Prod.fst <;> simp [upsert, hp, ih, hm, this]

theorem upsert_map_fst_nodup {β : Type} (better : β → β → Bool) (k : Nat) (v : β)
    (l : List (Nat × β)) (h : (l.map Prod.fst).Nodup) :
    ((upsert better k v l).map Prod.fst).Nodup := by
  rw [upsert_map_fst]
  by_cases hm : k ∈ l.map Prod.fst
  · simpa [hm] using h
  · rw [if_neg hm]
    refine List.Nodup.append h (by simp) ?_
    intro a ha hak
    rw [List.mem_singleton] at hak
    exact hm (hak ▸ ha)

theorem foldUpsert_go_map_fst_nodup {β : Type} (better : β → β → Bool)
    (items : List (Nat × β)) :
    ∀ acc : List (Nat × β), ((acc.map Prod.fst).Nodup) →
      (((items.foldl (fun acc kv => upsert better kv.1 kv.2 acc) acc).map
        Prod.fst).Nodup) := by
  induction items with
  | nil => intro acc h; simpa using h
  | cons it rest ih =>
    intro acc h
    exact ih _ (upsert_map_fst_nodup better it.1 it.2 acc h)

theorem foldUpsert_map_fst_nodup {β : Type} (better : β → β → Bool)
    (items : List (Nat × β)) : ((foldUpsert better items).map Prod.fst).Nodup :=
  foldUpsert_go_map_fst_nodup better items [] (by simp)

theorem foldUpsert_go_mem_map_fst {β : Type} (better : β → β → Bool)
    (items : List (Nat × β)) :
    ∀ acc : List (Nat × β), ∀ k : Nat,
      (k ∈ (items.foldl (fun acc kv => upsert better kv.1 kv.2 acc) acc).map
        Prod.fst) ↔ k ∈ acc.map Prod.fst ∨ k ∈ items.map Prod.fst := by
  induction items with
  | nil => intro acc k; simp
  | cons it rest ih =>
    intro acc k
    rw [List.foldl_cons, ih]
    constructor
    · rintro (h | h)
      · rw [upsert_map_fst] at h
        by_cases hm : it.1 ∈ acc.map Prod.fst
        · rw [if_pos hm] at h; exact Or.inl h
        · rw [if_neg hm] at h
          rcases List.mem_append.mp h with h | h
          · exact Or.inl h
          · simp at h; subst h; exact Or.inr (by simp)
      · exact Or.inr (by simp [h])
    · intro h
      rcases h with h | h
      · left
        rw [upsert_map_fst]
        by_cases hm : it.1 ∈ acc.map Prod.fst
        · rw [if_pos hm]; exact h
        · rw [if_neg hm]; exact List.mem_append_left _ h
      · rw [List.map_cons, List.mem_cons] at h
        rcases h with h | h
        · left
          rw [upsert_map_fst]
          by_cases hm : it.1 ∈ acc.map Prod.fst
          · rw [if_pos hm]; exact h ▸ hm
          · rw [if_neg hm]; subst h; exact List.mem_append_right _ (by simp)
        · right; exact h

theorem foldUpsert_mem_map_fst {β : Type} (better : β → β → Bool)
    (items : List (Nat × β)) (k : Nat) :
    k ∈ (foldUpsert better items).map Prod.fst ↔ k ∈ items.map Prod.fst := by
  rw [foldUpsert, foldUpsert_go_mem_map_fst]
  simp

/-- The running best value retained by one strict-improvement update. -/
def pickStep {β : Type} (better : β → β → Bool) (acc : Option β) (v : β) :
    Option β :=
  match acc with
  | none => some v
  | some w => some (if better v w then v else w)

/-- The running best value retained by a sequence of strict-improvement
updates. -/
def pickBest {β : Type} (better : β → β → Bool) (acc : Option β) (l : List β) :
    Option β :=
  l.foldl (pickStep better) acc

theorem lookupA_foldUpsert_go {β : Type} (better : β → β → Bool)
    (items : List (Nat × β)) :
    ∀ (acc : List (Nat × β)) (k : Nat),
      lookupA (items.foldl (fun acc kv => upsert better kv.1 kv.2 acc) acc) k =
        pickBest better (lookupA acc k)
          ((items.filter fun p => decide (p.1 = k)).map Prod.snd) := by
  induction items with
  | nil => intro acc k; simp [pickBest]
  | cons it rest ih =>
    intro acc k
    rw [List.foldl_cons, ih]
    by_cases hk : it.1 = k
    · rw [List.filter_cons_of_pos (by simpa using hk), List.map_cons]
      show _ = List.foldl (pickStep better) (pickStep better (lookupA acc k) it.2) _
      congr 1
      rw [lookupA_upsert, if_pos hk]
      cases lookupA acc k <;> rfl
    · rw [List.filter_cons_of_neg (by simpa using hk)]
      congr 1
      rw [lookupA_upsert, if_neg hk]

theorem lookupA_foldUpsert {β : Type} (better : β → β → Bool)
    (items : List (Nat × β)) (k : Nat) :
    lookupA (foldUpsert better items) k =
      pickBest better none ((items.filter fun p => decide (p.1 = k)).map Prod.snd) := by
  rw [foldUpsert, lookupA_foldUpsert_go]
  rfl

theorem pickStep_eq_some {β : Type} (better : β → β → Bool) (acc : Option β)
    (x : β) : ∃ u, pickStep better acc x = some u ∧ (u = x ∨ acc = some u) := by
  cases acc with
  | none => exact ⟨x, rfl, Or.inl rfl⟩
  | some w =>
    by_cases hb : better x w
    · exact ⟨x, by simp [pickStep, hb], Or.inl rfl⟩
    · exact ⟨w, by simp [pickStep, hb], Or.inr rfl⟩

theorem pickStep_le {β γ : Type} [LinearOrder γ] (better : β → β → Bool)
    (proj : β → γ) (hb : ∀ a b, better a b = true ↔ proj b < proj a)
    (acc : Option β) (x u : β) (h : pickStep better acc x = some u) :
    proj x ≤ proj u ∧ ∀ w, acc = some w → proj w ≤ proj u := by
  cases acc with
  | none =>
    cases h
    exact ⟨le_refl _, fun w hw => by cases hw⟩
  | some w =>
    by_cases hbet : better x w
    · simp only [pickStep, if_pos hbet] at h
      cases h
      exact ⟨le_refl _, fun w2 hw2 => by
        cases hw2; exact le_of_lt ((hb _ _).mp hbet)⟩
    · simp only [pickStep, if_neg hbet] at h
      cases h
      refine ⟨?_, fun w2 hw2 => by cases hw2; exact le_refl _⟩
      have : ¬ proj u < proj x := fun hlt => hbet ((hb _ _).mpr hlt)
      exact le_of_not_lt (fun hlt => this hlt)

theorem pickBest_spec {β γ : Type} [LinearOrder γ] (better : β → β → Bool)
    (proj : β → γ) (hb : ∀ a b, better a b = true ↔ proj b < proj a) :
    ∀ (l : List β) (acc : Option β) (v : β), pickBest better acc l = some v →
      (v ∈ l ∨ acc = some v) ∧ (∀ w ∈ l, proj w ≤ proj v) ∧
        (∀ w, acc = some w → proj w ≤ proj v) := by
  intro l
  induction l with
  | nil =>
    intro acc v h
    have hacc : acc = some v := h
    refine ⟨Or.inr hacc, by simp, fun w hw => ?_⟩
    rw [hacc] at hw
    cases hw
    exact le_refl _
  | cons x rest ih =>
    intro acc v h
    rw [pickBest, List.foldl_cons] at h
    obtain ⟨hmem, hrest, hacc⟩ := ih (pickStep better acc x) v h
    obtain ⟨u, hu, hu2⟩ := pickStep_eq_some better acc x
    obtain ⟨hxu, haccu⟩ := pickStep_le better proj hb acc x u hu
    have huv : proj u ≤ proj v := hacc u hu
    constructor
    · rcases hmem with hm | hm
      · exact Or.inl (List.mem_cons_of_mem _ hm)
      · rw [hu] at hm
        cases hm
        rcases hu2 with h2 | h2
        · exact Or.inl (h2 ▸ List.mem_cons_self _ _)
        · exact Or.inr h2
    constructor
    · intro w hw
      rcases List.mem_cons.mp hw with hw | hw
      · subst hw
        exact le_trans hxu huv
      · exact hrest w hw
    · intro w hw
      exact le_trans (haccu w hw) huv

theorem lookupA_eq_of_mem_of_nodup {β : Type} (l : List (Nat × β))
    (h : (l.map Prod.fst).Nodup) (p : Nat × β) (hp : p ∈ l) :
    lookupA l p.1 = some p.2 := by
  induction l with
  | nil => cases hp
  | cons q rest ih =>
    rw [List.map_cons, List.nodup_cons] at h
    rcases List.mem_cons.mp hp with hp2 | hp2
    · subst hp2
      rw [lookupA_cons, if_pos rfl]
    · have hne : ¬ q.1 = p.1 := by
        intro he
        exact h.1 (he ▸ (List.mem_map.mpr ⟨p, hp2, rfl⟩))
      rw [lookupA_cons, if_neg hne]
      exact ih h.2 hp2

/-! ### Sorting lemmas -/

theorem sortByKey_sorted {β : Type} (l : List (Nat × β)) :
    List.Sorted (fun a b : Nat × β => a.1 ≤ b.1) (sortByKey l) :=
  List.sorted_insertionSort _ l

theorem sortByKey_perm {β : Type} (l : List (Nat × β)) :
    List.Perm (sortByKey l) l :=
  List.perm_insertionSort _ l

instance {β : Type} : IsTrans (Nat × β) (fun a b => a.1 < b.1) :=
  ⟨fun _ _ _ h h2 => Nat.lt_trans h h2⟩

theorem chain_lt_of_sorted_nodup {β : Type} (l : List (Nat × β))
    (hs : List.Sorted (fun a b : Nat × β => a.1 ≤ b.1) l)
    (hn : (l.map Prod.fst).Nodup) :
    List.Chain' (fun a b : Nat × β => a.1 < b.1) l := by
  have hne : List.Pairwise (fun a b : Nat × β => a.1 ≠ b.1) l :=
    (List.pairwise_map).mp hn
  have hlt : List.Pairwise (fun a b : Nat × β => a.1 < b.1) l :=
    (hs.and hne).imp fun h => Nat.lt_of_le_of_ne h.1 h.2
  exact List.chain'_iff_pairwise.mpr hlt

theorem foldUpsert_mem_spec {β γ : Type} [LinearOrder γ] (better : β → β → Bool)
    (proj : β → γ) (hb : ∀ a b, better a b = true ↔ proj b < proj a)
    (items : List (Nat × β)) (p : Nat × β) (hp : p ∈ foldUpsert better items) :
    p.2 ∈ (items.filter fun q => decide (q.1 = p.1)).map Prod.snd ∧
      ∀ w ∈ (items.filter fun q => decide (q.1 = p.1)).map Prod.snd,
        proj w ≤ proj p.2 := by
  have hl : lookupA (foldUpsert better items) p.1 = some p.2 :=
    lookupA_eq_of_mem_of_nodup _ (foldUpsert_map_fst_nodup better items) p hp
  rw [lookupA_foldUpsert] at hl
  obtain ⟨hmem, hle, _⟩ := pickBest_spec better proj hb _ none p.2 hl
  rcases hmem with h | h
  · exact ⟨h, hle⟩
  · cases h

theorem foldUpsert_complete {β : Type} (better : β → β → Bool)
    (items : List (Nat × β)) (k : Nat) (hk : k ∈ items.map Prod.fst) :
    ∃ p ∈ foldUpsert better items, p.1 = k := by
  have := (foldUpsert_mem_map_fst better items k).mpr hk
  obtain ⟨p, hp, hpk⟩ := List.mem_map.mp this
  exact ⟨p, hp, hpk⟩

theorem valueBetter_iff (a b : ℚ) : valueBetter a b = true ↔ b < a := by
  simp [valueBetter]

theorem tsBetter_iff (a b : Nat × ℚ) : tsBetter a b = true ↔ b.1 < a.1 := by
  simp [tsBetter]

/-- The snapshot values recorded in quarter `q` (the claim's "maximum
snapshot value recorded in that calendar quarter" ranges over this list). -/
def quarterValues (records : List AssetControl) (q : Nat) : List ℚ :=
  ((quarterItems records).filter fun p => decide (p.1 = q)).map Prod.snd

theorem quarterBuckets_chain (records : List AssetControl) :
    List.Chain' (fun p q : SeriesPoint => p.date < q.date)
      (quarterBuckets records) := by
  rw [quarterBuckets, List.chain'_map]
  apply chain_lt_of_sorted_nodup _ (sortByKey_sorted _)
  have hperm : List.Perm ((sortByKey (quarterFold records)).map Prod.fst)
      ((quarterFold records).map Prod.fst) :=
    (sortByKey_perm (quarterFold records)).map Prod.fst
  exact hperm.nodup_iff.mpr (foldUpsert_map_fst_nodup _ _)

theorem quarterBuckets_peak (records : List AssetControl) (p : SeriesPoint)
    (hp : p ∈ quarterBuckets records) :
    p.value ∈ quarterValues records p.date ∧
      ∀ v ∈ quarterValues records p.date, v ≤ p.value := by
  rw [quarterBuckets] at hp
  obtain ⟨q, hq, hqp⟩ := List.mem_map.mp hp
  have hq2 : q ∈ quarterFold records := (List.mem_insertionSort _).mp hq
  have := foldUpsert_mem_spec valueBetter id valueBetter_iff
    (quarterItems records) q hq2
  rw [quarterFold] at hq2
  cases hqp
  exact this

theorem quarterBuckets_complete (records : List AssetControl)
    (r : AssetControl) (hr : r ∈ records) (t : Nat)
    (ht : r.controlDate = some t) :
    ∃ p ∈ quarterBuckets records, p.date = quarterOf (monthOf t) := by
  have hitem : (quarterOf (monthOf t), r.currentTotalValue) ∈ quarterItems records := by
    rw [quarterItems, List.mem_filterMap]
    exact ⟨r, hr, by rw [ht]; rfl⟩
  have hkey : quarterOf (monthOf t) ∈ (quarterItems records).map Prod.fst :=
    List.mem_map.mpr ⟨_, hitem, rfl⟩
  obtain ⟨q, hq, hqk⟩ := foldUpsert_complete valueBetter _ _ hkey
  refine ⟨⟨q.1, q.2⟩, ?_, hqk⟩
  rw [quarterBuckets]
  exact List.mem_map.mpr ⟨q, (List.mem_insertionSort _).mpr hq, rfl⟩

/-! ### Malformed-record invariance lemmas -/

theorem quarterItems_filter (records : List AssetControl) :
    quarterItems (records.filter fun r => r.controlDate.isSome) =
      quarterItems records := by
  induction records with
  | nil => rfl
  | cons r rest ih =>
    cases hr : r.controlDate with
    | none =>
      simp only [quarterItems, List.filter_cons, hr, Option.isSome_none,
        List.filterMap_cons, Option.map_none'] at ih ⊢
      exact ih
    | some t =>
      simp only [quarterItems, List.filter_cons, hr, Option.isSome_some, if_true,
        List.filterMap_cons, Option.map_some'] at ih ⊢
      rw [ih]

theorem monthItems_filter (records : List AssetControl) :
    monthItems (records.filter fun r => r.controlDate.isSome) =
      monthItems records := by
  induction records with
  | nil => rfl
  | cons r rest ih =>
    cases hr : r.controlDate with
    | none =>
      simp only [monthItems, List.filter_cons, hr, Option.isSome_none,
        List.filterMap_cons, Option.map_none'] at ih ⊢
      exact ih
    | some t =>
      simp only [monthItems, List.filter_cons, hr, Option.isSome_some, if_true,
        List.filterMap_cons, Option.map_some'] at ih ⊢
      rw [ih]

theorem buildQuarterlySeries_some (records : List AssetControl) (v : ℚ)
    (now : Nat) :
    buildQuarterlySeries records (some v) now =
      if records.isEmpty then [⟨now, v⟩]
      else quarterlyAttach (quarterBuckets records) v now := by
  cases records <;> rfl

/-! ### Claims about the quarterly builder -/

/-- Scenario A of the spec: snapshots Jan 100, Feb 150, Mar 120 (months 0,
1, 2 of year 0, all in the quarter starting at month 0). -/
def scenarioA : List AssetControl :=
  [⟨some 0, 100⟩, ⟨some 10000, 150⟩, ⟨some 20000, 120⟩]

/-- C1, counterexample: on Scenario A with no live value and the current
month later in the year (month 9), the quarterly series is NOT the single
peak-of-quarter point: the last record's value (120) is appended at "now"
because `currentValue` falls back to `records[records.length - 1]`. -/
theorem c1_counterexample :
    buildQuarterlySeries scenarioA none 9 = [⟨0, 150⟩, ⟨9, 120⟩] ∧
      buildQuarterlySeries scenarioA none 9 ≠ [⟨0, 150⟩] := by
  constructor
  · decide
  · decide

/-- C1, amended: with no live value the builder still attaches a
current-period point carrying the LAST record's value: on Scenario A, for
any current month other than the quarter-start month 0, the output is the
peak-of-quarter bucket `(0, 150)` followed by an appended point `(now, 120)`
(and when `now` is month 0 itself, the bucket is replaced, yielding
`[(0, 120)]`). -/
theorem c1_theorem (now : Nat) (h : 1 ≤ now) :
    buildQuarterlySeries scenarioA none now = [⟨0, 150⟩, ⟨now, 120⟩] := by
  show (if 0 = now then ([⟨now, 120⟩] : List SeriesPoint)
        else [⟨0, 150⟩, ⟨now, 120⟩]) = [⟨0, 150⟩, ⟨now, 120⟩]
  rw [if_neg (by omega)]

/-- C1, witness: the amended statement at the concrete current month 5. -/
theorem c1_witness :
    buildQuarterlySeries scenarioA none 5 = [⟨0, 150⟩, ⟨5, 120⟩] :=
  c1_theorem 5 (by decide)

/-- C2, counterexample: with a live value present and the last bucket in the
current month, the bucket is replaced by the live value, so the output point
of quarter 0 carries 50 even though the only snapshot recorded in quarter 0
has value 100 — the output value is not the quarter's maximum snapshot
value. -/
theorem c2_counterexample :
    buildQuarterlySeries [⟨some 0, 100⟩] (some 50) 0 = [⟨0, 50⟩] ∧
      quarterValues [⟨some 0, 100⟩] 0 = [100] ∧ ¬ ((50 : ℚ) = 100) := by
  refine ⟨by decide, by decide, by decide⟩

/-- C2, amended: the peak-of-quarter bucket series (`quarterlyData` before
the current-value step) is strictly ascending by timestamp, each bucket's
value is the maximum snapshot value recorded in its calendar quarter, and
every parseable snapshot's quarter has a bucket; the full output can deviate
only through the current-value replacement/append step. -/
theorem c2_theorem (records : List AssetControl) :
    List.Chain' (fun p q : SeriesPoint => p.date < q.date)
        (quarterBuckets records) ∧
      (∀ p ∈ quarterBuckets records,
        p.value ∈ quarterValues records p.date ∧
          ∀ v ∈ quarterValues records p.date, v ≤ p.value) ∧
      (∀ r ∈ records, ∀ t : Nat, r.controlDate = some t →
        ∃ p ∈ quarterBuckets records, p.date = quarterOf (monthOf t)) :=
  ⟨quarterBuckets_chain records,
   fun p hp => quarterBuckets_peak records p hp,
   fun r hr t ht => quarterBuckets_complete records r hr t ht⟩

/-- C2, witness: the amended statement applied to two snapshots in quarter 0
with peak 150. -/
theorem c2_witness :
    ((150 : ℚ) ∈ quarterValues [⟨some 0, 100⟩, ⟨some 10000, 150⟩] 0 ∧
      ∀ v ∈ quarterValues [⟨some 0, 100⟩, ⟨some 10000, 150⟩] 0, v ≤ 150) ∧
      ∃ p ∈ quarterBuckets [⟨some 0, 100⟩, ⟨some 10000, 150⟩],
        p.date = quarterOf (monthOf 0) :=
  ⟨(c2_theorem [⟨some 0, 100⟩, ⟨some 10000, 150⟩]).2.1 ⟨0, 150⟩ (by decide),
   (c2_theorem [⟨some 0, 100⟩, ⟨some 10000, 150⟩]).2.2 ⟨some 0, 100⟩
     (by decide) 0 rfl⟩

/-- C8: on an empty snapshot collection the quarterly builder returns a
single point at the current month carrying the live value when present, and
the empty series when absent; in particular live value 500 at month 7 yields
exactly `[(7, 500)]`. -/
theorem c8_theorem :
    (∀ (now : Nat) (v : ℚ),
        buildQuarterlySeries [] (some v) now = [⟨now, v⟩]) ∧
      (∀ now : Nat, buildQuarterlySeries [] none now = []) ∧
      buildQuarterlySeries [] (some 500) 7 = [⟨7, 500⟩] :=
  ⟨fun _ _ => rfl, fun _ => rfl, rfl⟩

/-- C10: with a live value present, the replace-vs-append test compares the
last bucket's month to the current month (not its quarter): a January
snapshot (month 0, quarter start 0) with "now" in February (month 1, same
quarter) yields two output points in the same calendar quarter. -/
theorem c10_theorem :
    buildQuarterlySeries [⟨some 0, 100⟩] (some 200) 1 = [⟨0, 100⟩, ⟨1, 200⟩] ∧
      quarterOf 0 = quarterOf 1 := by
  refine ⟨by decide, rfl⟩

/-- C9, counterexample: a lone record with an unparseable date is NOT
equivalent to removing it: without a live value the quarterly builder still
uses that record's value as the current value and emits a point, while the
collection with the malformed record removed yields the empty series. -/
theorem c9_counterexample :
    buildQuarterlySeries [⟨none, 100⟩] none 5 = [⟨5, 100⟩] ∧
      ([⟨none, 100⟩] : List AssetControl).filter
        (fun r => r.controlDate.isSome) = [] ∧
      buildQuarterlySeries [] none 5 = [] :=
  ⟨by decide, by decide, rfl⟩

/-- C9, amended: skipping malformed records is removal-equivalent for the
monthly builder unconditionally, and for the quarterly builder whenever a
live value is present (with no live value the quarterly builder's
current-value fallback reads the last record's value, parseable or not, so
removal can change the output). -/
theorem c9_theorem :
    (∀ (records : List AssetControl) (fallback : Option ℚ) (now months : Nat),
        buildMonthlySeries records fallback now months =
          buildMonthlySeries (records.filter fun r => r.controlDate.isSome)
            fallback now months) ∧
      (∀ (records : List AssetControl) (v : ℚ) (now : Nat),
        buildQuarterlySeries records (some v) now =
          buildQuarterlySeries (records.filter fun r => r.controlDate.isSome)
            (some v) now) := by
  constructor
  · intro records fallback now months
    have hm : monthFold (records.filter fun r => r.controlDate.isSome) =
        monthFold records := by
      rw [monthFold, monthFold, monthItems_filter]
    have he : sortedMonthEntries (records.filter fun r => r.controlDate.isSome)
        fallback now = sortedMonthEntries records fallback now := by
      cases fallback <;> simp [sortedMonthEntries, monthEntries, hm]
    rw [buildMonthlySeries, buildMonthlySeries, he]
  · intro records v now
    have hqb : quarterBuckets (records.filter fun r => r.controlDate.isSome) =
        quarterBuckets records := by
      rw [quarterBuckets, quarterBuckets, quarterFold, quarterFold,
        quarterItems_filter]
    rw [buildQuarterlySeries_some, buildQuarterlySeries_some]
    by_cases h1 : records.isEmpty
    · have : records = [] := List.isEmpty_iff.mp h1
      subst this
      rfl
    · rw [if_neg (by simpa using h1)]
      by_cases h2 : (records.filter fun r => r.controlDate.isSome).isEmpty
      · have hnil : (records.filter fun r => r.controlDate.isSome) = [] :=
          List.isEmpty_iff.mp h2
        rw [if_pos h2, ← hqb, hnil]
        rfl
      · rw [if_neg h2, hqb]

/-! ### Forward-fill lemmas -/

theorem dropWhile_le_bound (c : Nat) (l : List (Nat × ℚ))
    (hs : List.Pairwise (fun a b : Nat × ℚ => a.1 ≤ b.1) l) :
    ∀ e ∈ l.dropWhile (fun e => decide (e.1 ≤ c)), c < e.1 := by
  induction l with
  | nil => simp
  | cons a l ih =>
    rw [List.pairwise_cons] at hs
    by_cases ha : a.1 ≤ c
    · rw [List.dropWhile_cons_of_pos (by simpa using ha)]
      exact ih hs.2
    · rw [List.dropWhile_cons_of_neg (by simpa using ha)]
      intro e he
      rcases List.mem_cons.mp he with he | he
      · subst he; omega
      · exact lt_of_lt_of_le (by omega) (hs.1 e he)

theorem dropWhile_lt_bound (c : Nat) (l : List (Nat × ℚ))
    (hs : List.Pairwise (fun a b : Nat × ℚ => a.1 ≤ b.1) l) :
    ∀ e ∈ l.dropWhile (fun e => decide (e.1 < c)), c ≤ e.1 := by
  induction l with
  | nil => simp
  | cons a l ih =>
    rw [List.pairwise_cons] at hs
    by_cases ha : a.1 < c
    · rw [List.dropWhile_cons_of_pos (by simpa using ha)]
      exact ih hs.2
    · rw [List.dropWhile_cons_of_neg (by simpa using ha)]
      intro e he
      rcases List.mem_cons.mp he with he | he
      · subst he; omega
      · exact le_trans (by omega) (hs.1 e he)

theorem fillLoop_succ (entries : List (Nat × ℚ)) (latest : Option ℚ)
    (cur r : Nat) :
    fillLoop entries latest cur (r + 1) =
      match (entries.takeWhile fun e => e.1 ≤ cur).getLast? with
      | some e =>
        ⟨cur, e.2⟩ ::
          fillLoop (entries.dropWhile fun e => e.1 ≤ cur) (some e.2) (cur + 1) r
      | none =>
        match latest with
        | none =>
          fillLoop (entries.dropWhile fun e => e.1 ≤ cur) none (cur + 1) r
        | some v =>
          ⟨cur, v⟩ ::
            fillLoop (entries.dropWhile fun e => e.1 ≤ cur) (some v) (cur + 1) r :=
  rfl

theorem fillLoop_length (r : Nat) :
    ∀ (entries : List (Nat × ℚ)) (latest : Option ℚ) (cur : Nat),
      (fillLoop entries latest cur r).length ≤ r := by
  induction r with
  | zero => intro entries latest cur; simp [fillLoop]
  | succ r ih =>
    intro entries latest cur
    rw [fillLoop_succ]
    cases hc : (entries.takeWhile fun e => e.1 ≤ cur).getLast? with
    | some e =>
      simpa using Nat.succ_le_succ (ih _ _ _)
    | none =>
      cases latest with
      | none => exact le_trans (ih _ _ _) (Nat.le_succ r)
      | some v => simpa using Nat.succ_le_succ (ih _ _ _)

theorem fillLoop_head (entries : List (Nat × ℚ)) (v : ℚ) (cur : Nat) (r : Nat)
    (hr : 0 < r) :
    ∃ w, (fillLoop entries (some v) cur r).head? = some ⟨cur, w⟩ := by
  cases r with
  | zero => omega
  | succ s =>
    rw [fillLoop_succ]
    cases hc : (entries.takeWhile fun e => e.1 ≤ cur).getLast? with
    | some e => exact ⟨e.2, rfl⟩
    | none => exact ⟨v, rfl⟩

theorem fillLoop_chain (r : Nat) :
    ∀ (entries : List (Nat × ℚ)) (latest : Option ℚ) (cur : Nat),
      List.Chain' (fun p q : SeriesPoint => q.date = p.date + 1)
        (fillLoop entries latest cur r) := by
  induction r with
  | zero => intro entries latest cur; simp [fillLoop]
  | succ r ih =>
    intro entries latest cur
    rw [fillLoop_succ]
    have hcons : ∀ (w : ℚ) (rest : List (Nat × ℚ)),
        List.Chain' (fun p q : SeriesPoint => q.date = p.date + 1)
          (⟨cur, w⟩ :: fillLoop rest (some w) (cur + 1) r) := by
      intro w rest
      rw [List.chain'_cons']
      refine ⟨?_, ih _ _ _⟩
      intro b hb
      cases r with
      | zero => simp [fillLoop] at hb
      | succ s =>
        obtain ⟨w2, hw2⟩ := fillLoop_head rest w (cur + 1) (s + 1) (by omega)
        rw [hw2] at hb
        cases hb
        rfl
    cases hc : (entries.takeWhile fun e => e.1 ≤ cur).getLast? with
    | some e => exact hcons e.2 _
    | none =>
      cases latest with
      | none => exact ih _ _ _
      | some v => exact hcons v _

theorem fillLoop_range (r : Nat) :
    ∀ (entries : List (Nat × ℚ)) (latest : Option ℚ) (cur : Nat),
      ∀ p ∈ fillLoop entries latest cur r, cur ≤ p.date ∧ p.date < cur + r := by
  induction r with
  | zero => intro entries latest cur p hp; simp [fillLoop] at hp
  | succ r ih =>
    intro entries latest cur p hp
    rw [fillLoop_succ] at hp
    have hcons : ∀ (w : ℚ) (rest : List (Nat × ℚ)),
        p ∈ (⟨cur, w⟩ :: fillLoop rest (some w) (cur + 1) r : List SeriesPoint) →
        cur ≤ p.date ∧ p.date < cur + (r + 1) := by
      intro w rest hmem
      rcases List.mem_cons.mp hmem with h | h
      · subst h; constructor <;> simp
      · have := ih _ _ _ p h
        omega
    cases hc : (entries.takeWhile fun e => e.1 ≤ cur).getLast? with
    | some e =>
      rw [hc] at hp
      exact hcons e.2 _ hp
    | none =>
      rw [hc] at hp
      cases latest with
      | none =>
        have := ih _ _ _ p hp
        omega
      | some v => exact hcons v _ hp

theorem eq_nil_of_getLast?_eq_none {α : Type} {l : List α}
    (h : l.getLast? = none) : l = [] := by
  cases l with
  | nil => rfl
  | cons a t =>
    exfalso
    have hs : ((a :: t).getLast?).isSome := List.getLast?_isSome.mpr (by simp)
    rw [h] at hs
    simp at hs

theorem fillLoop_value (r : Nat) :
    ∀ (entries : List (Nat × ℚ)) (latest : Option ℚ) (cur : Nat),
      List.Pairwise (fun a b : Nat × ℚ => a.1 ≤ b.1) entries →
      (∀ e ∈ entries, cur ≤ e.1) →
      ∀ p ∈ fillLoop entries latest cur r,
        ((entries.filter fun e => decide (e.1 ≤ p.date)).getLast?).map Prod.snd
            = some p.value ∨
          ((entries.filter fun e => decide (e.1 ≤ p.date)) = [] ∧
            latest = some p.value) := by
  induction r with
  | zero => intro entries latest cur _ _ p hp; simp [fillLoop] at hp
  | succ r ih =>
    intro entries latest cur hpw hlo p hp
    rw [fillLoop_succ] at hp
    have hcle : ∀ e ∈ entries.takeWhile (fun e => e.1 ≤ cur), e.1 ≤ cur :=
      fun e he => by simpa using List.mem_takeWhile_imp he
    have hrest_gt : ∀ e ∈ entries.dropWhile (fun e => e.1 ≤ cur), cur < e.1 :=
      dropWhile_le_bound cur entries hpw
    have hrest_pw : List.Pairwise (fun a b : Nat × ℚ => a.1 ≤ b.1)
        (entries.dropWhile fun e => e.1 ≤ cur) :=
      List.Pairwise.sublist (List.dropWhile_sublist _) hpw
    have hfilter_all : ∀ d : Nat, cur ≤ d →
        (entries.filter fun e => decide (e.1 ≤ d)) =
          (entries.takeWhile fun e => e.1 ≤ cur) ++
            ((entries.dropWhile fun e => e.1 ≤ cur).filter
              fun e => decide (e.1 ≤ d)) := by
      intro d hd
      conv_lhs => rw [← List.takeWhile_append_dropWhile
        (fun e : Nat × ℚ => decide (e.1 ≤ cur)) entries]
      rw [List.filter_append]
      congr 1
      exact List.filter_eq_self.mpr
        (fun e he => by simpa using le_trans (hcle e he) hd)
    have hfc : (entries.filter fun e => decide (e.1 ≤ cur)) =
        entries.takeWhile fun e => e.1 ≤ cur := by
      rw [hfilter_all cur (le_refl cur)]
      have hn : ((entries.dropWhile fun e => e.1 ≤ cur).filter
          fun e => decide (e.1 ≤ cur)) = [] := by
        rw [List.filter_eq_nil_iff]
        intro e he
        have := hrest_gt e he
        simp
        omega
      rw [hn, List.append_nil]
    have hhead : ∀ w : ℚ,
        (match (entries.takeWhile fun e => e.1 ≤ cur).getLast? with
          | some e => some e.2
          | none => latest) = some w →
        ((entries.filter fun e =>
            decide (e.1 ≤ (⟨cur, w⟩ : SeriesPoint).date)).getLast?).map Prod.snd
            = some (⟨cur, w⟩ : SeriesPoint).value ∨
          ((entries.filter fun e =>
            decide (e.1 ≤ (⟨cur, w⟩ : SeriesPoint).date)) = [] ∧
            latest = some (⟨cur, w⟩ : SeriesPoint).value) := by
      intro w hw
      cases hc : (entries.takeWhile fun e => e.1 ≤ cur).getLast? with
      | some e =>
        rw [hc] at hw
        left
        show ((entries.filter fun e => decide (e.1 ≤ cur)).getLast?).map
          Prod.snd = some w
        rw [hfc, hc]
        simpa using hw
      | none =>
        rw [hc] at hw
        right
        refine ⟨?_, hw⟩
        show (entries.filter fun e => decide (e.1 ≤ cur)) = []
        rw [hfc, eq_nil_of_getLast?_eq_none hc]
    have htail : ∀ (L : Option ℚ),
        (match (entries.takeWhile fun e => e.1 ≤ cur).getLast? with
          | some e => some e.2
          | none => latest) = L →
        p ∈ fillLoop (entries.dropWhile fun e => e.1 ≤ cur) L (cur + 1) r →
        ((entries.filter fun e => decide (e.1 ≤ p.date)).getLast?).map Prod.snd
            = some p.value ∨
          ((entries.filter fun e => decide (e.1 ≤ p.date)) = [] ∧
            latest = some p.value) := by
      intro L hL hp2
      have hrange := fillLoop_range r _ L (cur + 1) p hp2
      have hd : cur ≤ p.date := le_trans (Nat.le_succ cur) hrange.1
      have hfa := hfilter_all p.date hd
      rcases ih _ L (cur + 1) hrest_pw (fun e he => hrest_gt e he) p hp2 with
        hres | ⟨hnil, hLv⟩
      · left
        rw [hfa]
        have hne : ((entries.dropWhile fun e => e.1 ≤ cur).filter
            fun e => decide (e.1 ≤ p.date)) ≠ [] := by
          intro hcon
          rw [hcon] at hres
          cases hres
        rw [List.getLast?_append_of_ne_nil _ hne]
        exact hres
      · subst hLv
        cases hc : (entries.takeWhile fun e => e.1 ≤ cur).getLast? with
        | some e =>
          rw [hc] at hL
          left
          rw [hfa, hnil, List.append_nil, hc]
          have h2 : some e.2 = some p.value := hL
          simpa using h2
        | none =>
          rw [hc] at hL
          right
          rw [hfa, hnil, List.append_nil, eq_nil_of_getLast?_eq_none hc]
          exact ⟨rfl, hL⟩
    cases hc : (entries.takeWhile fun e => e.1 ≤ cur).getLast? with
    | some e =>
      rw [hc] at hp
      rcases List.mem_cons.mp hp with hp2 | hp2
      · subst hp2
        exact hhead e.2 (by rw [hc])
      · exact htail (some e.2) (by rw [hc]) hp2
    | none =>
      rw [hc] at hp
      cases hlat : latest with
      | none =>
        rw [hlat] at hp
        rcases htail none (by rw [hc, hlat]) hp with h | ⟨h1, h2⟩
        · exact Or.inl h
        · exact Or.inr ⟨h1, hlat.symm.trans h2⟩
      | some v =>
        rw [hlat] at hp
        rcases List.mem_cons.mp hp with hp2 | hp2
        · subst hp2
          rcases hhead v (by rw [hc, hlat]) with h | ⟨h1, h2⟩
          · exact Or.inl h
          · exact Or.inr ⟨h1, hlat.symm.trans h2⟩
        · rcases htail (some v) (by rw [hc, hlat]) hp2 with h | ⟨h1, h2⟩
          · exact Or.inl h
          · exact Or.inr ⟨h1, hlat.symm.trans h2⟩

/-- C5: every trailing-months series has at most `months` points, neighboring
points are exactly one calendar month apart, and each point's value is the
forward-filled latest monthly value known at or before that point's month
(in particular a month with no entry at or before it produces no point, so
months before the first available data are omitted). -/
theorem c5_theorem (records : List AssetControl) (fallback : Option ℚ)
    (now months : Nat) :
    (buildMonthlySeries records fallback now months).length ≤ months ∧
      List.Chain' (fun p q : SeriesPoint => q.date = p.date + 1)
        (buildMonthlySeries records fallback now months) ∧
      ∀ p ∈ buildMonthlySeries records fallback now months,
        (((sortedMonthEntries records fallback now).filter
            fun e => decide (e.1 ≤ p.date)).getLast?).map Prod.snd
          = some p.value := by
  by_cases hemp : (sortedMonthEntries records fallback now).isEmpty
  · simp only [buildMonthlySeries, if_pos hemp]
    refine ⟨by simp, by simp, by simp⟩
  · simp only [buildMonthlySeries, if_neg hemp]
    have hsorted : List.Pairwise (fun a b : Nat × ℚ => a.1 ≤ b.1)
        (sortedMonthEntries records fallback now) :=
      sortByKey_sorted (monthEntries records fallback now)
    have hrest_pw : List.Pairwise (fun a b : Nat × ℚ => a.1 ≤ b.1)
        ((sortedMonthEntries records fallback now).dropWhile
          fun e => e.1 < now - (months - 1)) :=
      List.Pairwise.sublist (List.dropWhile_sublist _) hsorted
    have hrest_lo : ∀ e ∈ (sortedMonthEntries records fallback now).dropWhile
        (fun e => e.1 < now - (months - 1)), now - (months - 1) ≤ e.1 :=
      dropWhile_lt_bound (now - (months - 1)) _ hsorted
    refine ⟨fillLoop_length months _ _ _, fillLoop_chain months _ _ _, ?_⟩
    intro p hp
    have hd : now - (months - 1) ≤ p.date :=
      (fillLoop_range months _ _ _ p hp).1
    have hsplit : ((sortedMonthEntries records fallback now).filter
        fun e => decide (e.1 ≤ p.date)) =
          ((sortedMonthEntries records fallback now).takeWhile
            fun e => e.1 < now - (months - 1)) ++
          (((sortedMonthEntries records fallback now).dropWhile
            fun e => e.1 < now - (months - 1)).filter
              fun e => decide (e.1 ≤ p.date)) := by
      conv_lhs => rw [← List.takeWhile_append_dropWhile
        (fun e : Nat × ℚ => decide (e.1 < now - (months - 1)))
        (sortedMonthEntries records fallback now)]
      rw [List.filter_append]
      congr 1
      refine List.filter_eq_self.mpr fun e he => ?_
      have := List.mem_takeWhile_imp he
      simp at this ⊢
      omega
    rcases fillLoop_value months _ _ _ hrest_pw hrest_lo p hp with
      hres | ⟨hnil, hlatest⟩
    · rw [hsplit]
      have hne : (((sortedMonthEntries records fallback now).dropWhile
          fun e => e.1 < now - (months - 1)).filter
            fun e => decide (e.1 ≤ p.date)) ≠ [] := by
        intro hcon
        rw [hcon] at hres
        cases hres
      rw [List.getLast?_append_of_ne_nil _ hne]
      exact hres
    · rw [hsplit, hnil, List.append_nil]
      exact hlatest

/-- C5, witness: one snapshot in month 0, window of 3 months ending at
month 2; the forward-filled point at month 1 carries the month-0 value. -/
theorem c5_witness :
    (((sortedMonthEntries [⟨some 0, 10⟩] none 2).filter
        fun e => decide (e.1 ≤ 1)).getLast?).map Prod.snd = some 10 :=
  (c5_theorem [⟨some 0, 10⟩] none 2 3).2.2 ⟨1, 10⟩ (by decide)

/-! ### Rounding and summation lemmas -/

theorem foldl_add_rawValue (l : List ShareItem) (a : ℚ) :
    l.foldl (fun acc i => acc + i.rawValue) a = a + (l.map (·.rawValue)).sum := by
  induction l generalizing a with
  | nil => simp
  | cons x rest ih =>
    rw [List.foldl_cons, ih, List.map_cons, List.sum_cons]
    ring

theorem round2_sub_abs_le (q : ℚ) : |round2 q - q| ≤ 1 / 200 := by
  rw [round2]
  have h : |q * 100 - ((round (q * 100) : ℤ) : ℚ)| ≤ 1 / 2 := abs_sub_round (q * 100)
  have h2 : ((round (q * 100) : ℤ) : ℚ) / 100 - q
      = -(q * 100 - ((round (q * 100) : ℤ) : ℚ)) / 100 := by ring
  rw [h2, abs_div, abs_neg]
  rw [show |(100 : ℚ)| = 100 by norm_num]
  calc |q * 100 - ((round (q * 100) : ℤ) : ℚ)| / 100 ≤ (1 / 2) / 100 := by
        exact div_le_div_of_nonneg_right h (by norm_num)
    _ = 1 / 200 := by norm_num

theorem abs_list_sum_le (l : List ℚ) (c : ℚ) (h : ∀ x ∈ l, |x| ≤ c) :
    |l.sum| ≤ l.length * c := by
  induction l with
  | nil => simp
  | cons x rest ih =>
    rw [List.sum_cons, List.length_cons]
    calc |x + rest.sum| ≤ |x| + |rest.sum| := abs_add _ _
      _ ≤ c + rest.length * c := by
          exact add_le_add (h x (List.mem_cons_self x rest))
            (ih fun y hy => h y (List.mem_cons_of_mem x hy))
      _ = (rest.length + 1) * c := by ring
      _ = ((rest.length + 1 : Nat) : ℚ) * c := by push_cast; ring

theorem list_sum_map_div_mul (l : List ℚ) (T c : ℚ) :
    (l.map fun x => x / T * c).sum = l.sum / T * c := by
  induction l with
  | nil => simp
  | cons x rest ih =>
    rw [List.map_cons, List.sum_cons, List.sum_cons, ih]
    ring

theorem list_sum_map_sub (l : List ShareItem) (f g : ShareItem → ℚ) :
    (l.map fun i => f i - g i).sum = (l.map f).sum - (l.map g).sum := by
  induction l with
  | nil => simp
  | cons x rest ih =>
    simp only [List.map_cons, List.sum_cons, ih]
    ring

/-- C6: hiding categories renormalizes against the sum of the remaining raw
values only: every surviving entry's percent is recomputed relative to that
remaining sum, the result is empty when the remaining sum is not positive,
and otherwise the visible percentages sum to 100% up to rounding (within
half a hundredth per remaining category). -/
theorem c6_theorem (distribution : List ShareItem) (hidden : Nat → Bool) :
    (∀ i ∈ visibleCategoryDistribution distribution hidden,
        i.percent = round2 (i.rawValue /
          ((distribution.filter fun i => !hidden i.category).map
            (·.rawValue)).sum * 100)) ∧
      (((distribution.filter fun i => !hidden i.category).map
          (·.rawValue)).sum ≤ 0 →
        visibleCategoryDistribution distribution hidden = []) ∧
      (0 < ((distribution.filter fun i => !hidden i.category).map
          (·.rawValue)).sum →
        |((visibleCategoryDistribution distribution hidden).map
            (·.percent)).sum - 100|
          ≤ ((distribution.filter fun i => !hidden i.category).length : ℚ)
            * (1 / 200)) := by
  have hvd : visibleCategoryDistribution distribution hidden =
      if ((distribution.filter fun i => !hidden i.category).map
          (·.rawValue)).sum ≤ 0
      then []
      else (distribution.filter fun i => !hidden i.category).map fun i =>
        ⟨i.category, i.rawValue, round2 (i.rawValue /
          ((distribution.filter fun i => !hidden i.category).map
            (·.rawValue)).sum * 100)⟩ := by
    simp only [visibleCategoryDistribution, foldl_add_rawValue, zero_add]
  by_cases hT : ((distribution.filter fun i => !hidden i.category).map
      (·.rawValue)).sum ≤ 0
  · rw [hvd, if_pos hT]
    exact ⟨by simp, fun _ => rfl, fun h0 => absurd h0 (not_lt.mpr hT)⟩
  · rw [hvd, if_neg hT]
    refine ⟨?_, fun h => absurd h hT, ?_⟩
    · intro i hi
      obtain ⟨j, _, hj⟩ := List.mem_map.mp hi
      cases hj
      rfl
    · intro h0
      rw [List.map_map]
      have hcomp : ((fun i : ShareItem => i.percent) ∘ fun i : ShareItem =>
          (⟨i.category, i.rawValue, round2 (i.rawValue /
            ((distribution.filter fun i => !hidden i.category).map
              (·.rawValue)).sum * 100)⟩ : ShareItem)) =
          fun i : ShareItem => round2 (i.rawValue /
            ((distribution.filter fun i => !hidden i.category).map
              (·.rawValue)).sum * 100) := rfl
      rw [hcomp]
      have hsum_p : ((distribution.filter fun i => !hidden i.category).map
          fun i => i.rawValue /
            ((distribution.filter fun i => !hidden i.category).map
              (·.rawValue)).sum * 100).sum = 100 := by
        have hmm : ((distribution.filter fun i => !hidden i.category).map
            fun i => i.rawValue /
              ((distribution.filter fun i => !hidden i.category).map
                (·.rawValue)).sum * 100) =
            (((distribution.filter fun i => !hidden i.category).map
              (·.rawValue)).map fun x => x /
                ((distribution.filter fun i => !hidden i.category).map
                  (·.rawValue)).sum * 100) := by
          rw [List.map_map]
          rfl
        rw [hmm, list_sum_map_div_mul, div_self (ne_of_gt h0)]
        norm_num
      have hdiff := list_sum_map_sub (distribution.filter fun i => !hidden i.category)
        (fun i => round2 (i.rawValue /
          ((distribution.filter fun i => !hidden i.category).map
            (·.rawValue)).sum * 100))
        (fun i => i.rawValue /
          ((distribution.filter fun i => !hidden i.category).map
            (·.rawValue)).sum * 100)
      rw [hsum_p] at hdiff
      rw [← hdiff]
      have hbound := abs_list_sum_le
        (((distribution.filter fun i => !hidden i.category)).map
          fun i => round2 (i.rawValue /
            ((distribution.filter fun i => !hidden i.category).map
              (·.rawValue)).sum * 100) - i.rawValue /
            ((distribution.filter fun i => !hidden i.category).map
              (·.rawValue)).sum * 100)
        (1 / 200) ?_
      · simpa using hbound
      · intro x hx
        obtain ⟨j, _, hj⟩ := List.mem_map.mp hx
        rw [← hj]
        exact round2_sub_abs_le _

/-- C6, witness: hiding category 0 out of `{0 ↦ 60, 1 ↦ 40}` leaves one
category whose renormalized percentage sums to 100 within rounding; hiding
everything yields the empty distribution. -/
theorem c6_witness :
    |((visibleCategoryDistribution [⟨0, 60, 60⟩, ⟨1, 40, 40⟩]
        (fun c => decide (c = 0))).map (·.percent)).sum - 100|
        ≤ ((([⟨0, 60, 60⟩, ⟨1, 40, 40⟩] : List ShareItem).filter
            fun i => !(decide (i.category = 0))).length : ℚ) * (1 / 200) ∧
      visibleCategoryDistribution [⟨0, 60, 60⟩, ⟨1, 40, 40⟩]
        (fun _ => true) = [] :=
  ⟨(c6_theorem [⟨0, 60, 60⟩, ⟨1, 40, 40⟩] (fun c => decide (c = 0))).2.2
      (by norm_num [List.filter]),
   (c6_theorem [⟨0, 60, 60⟩, ⟨1, 40, 40⟩] (fun _ => true)).2.1
      (by norm_num [List.filter])⟩

/-- Concrete distribution used by the C4 declarations: one asset of value
100 with no live total and fallback total 100 gives a single 100% share. -/
theorem distribution_single_asset :
    categoryDistribution [⟨0, some 100⟩] none 100 = [⟨0, 100, 100⟩] := by
  norm_num [categoryDistribution, catTotals, addToCat, round2, round_eq,
    List.insertionSort, List.orderedInsert, List.filter]

/-- C4, counterexample: a present-but-zero live total makes the result
empty; the summed/fallback total (here 100, which alone yields a 100%
share) is NOT used as the denominator in its place. -/
theorem c4_counterexample :
    categoryDistribution [⟨0, some 100⟩] (some 0) 100 = [] ∧
      categoryDistribution [⟨0, some 100⟩] none 100 = [⟨0, 100, 100⟩] ∧
      ([] : List ShareItem) ≠ [⟨0, 100, 100⟩] :=
  ⟨rfl, distribution_single_asset, by decide⟩

/-- C4, amended: a present live total is always the denominator: a present
override ≤ 0 empties the result outright (the fallback total is never
consulted), a present override behaves exactly like using it as the total,
and every produced percent is computed against the resolved total
(the override when present, else the fallback). -/
theorem c4_theorem :
    (∀ (assets : List Asset) (tv ov : ℚ), ov ≤ 0 →
        categoryDistribution assets (some ov) tv = []) ∧
      (∀ (assets : List Asset) (tv ov : ℚ),
        categoryDistribution assets (some ov) tv =
          categoryDistribution assets none ov) ∧
      (∀ (assets : List Asset) (cto : Option ℚ) (tv : ℚ),
        ∀ i ∈ categoryDistribution assets cto tv,
          i.percent = round2 (i.rawValue / cto.getD tv * 100)) := by
  refine ⟨?_, ?_, ?_⟩
  · intro assets tv ov h
    simp only [categoryDistribution, Option.getD_some]
    rw [if_pos (Or.inr h)]
  · intro assets tv ov
    rfl
  · intro assets cto tv i hi
    rw [categoryDistribution] at hi
    by_cases hcond : assets.isEmpty ∨ cto.getD tv ≤ 0
    · rw [if_pos hcond] at hi
      cases hi
    · rw [if_neg hcond] at hi
      have hi2 := (List.mem_insertionSort _).mp hi
      obtain ⟨j, hj1, hj2⟩ := List.mem_map.mp (List.mem_of_mem_filter hi2)
      cases hj2
      rfl

/-- C4, witness: the amended statement at a zero override (result empty) and
at the concrete single-asset distribution (percent computed against the
resolved total 100). -/
theorem c4_witness :
    categoryDistribution [⟨0, some 100⟩] (some 0) 100 = [] ∧
      (⟨0, 100, 100⟩ : ShareItem).percent =
        round2 ((⟨0, 100, 100⟩ : ShareItem).rawValue /
          (none : Option ℚ).getD 100 * 100) :=
  ⟨(c4_theorem).1 [⟨0, some 100⟩] 100 0 le_rfl,
   (c4_theorem).2.2 [⟨0, some 100⟩] none 100 ⟨0, 100, 100⟩
     (by rw [distribution_single_asset]; exact List.mem_singleton.mpr rfl)⟩

/-! ### Net cash-flow map lemmas -/

theorem lookupNet_nil (k : Nat × Nat) : lookupNet [] k = 0 := rfl

theorem lookupNet_cons (p : (Nat × Nat) × ℚ) (l : List ((Nat × Nat) × ℚ))
    (k : Nat × Nat) :
    lookupNet (p :: l) k = if p.1 = k then p.2 else lookupNet l k := by
  by_cases h : p.1 = k <;> simp [lookupNet, List.find?_cons, h]

theorem lookupNet_netUpd (k2 : Nat × Nat) (a : ℚ) (l : List ((Nat × Nat) × ℚ))
    (k : Nat × Nat) :
    lookupNet (netUpd k2 a l) k =
      lookupNet l k + (if k2 = k then a else 0) := by
  induction l with
  | nil =>
    by_cases h : k2 = k <;>
      simp [netUpd, lookupNet_cons, lookupNet_nil, h]
  | cons p rest ih =>
    by_cases hp : p.1 = k2
    · by_cases hk : p.1 = k
      · have h2 : k2 = k := hp.symm.trans hk
        simp [netUpd, hp, lookupNet_cons, hk, h2]
      · have h2 : ¬ k2 = k := fun h => hk (hp.trans h)
        simp [netUpd, hp, lookupNet_cons, hk, h2]
    · by_cases hk : p.1 = k
      · have h2 : ¬ k2 = k := fun h => hp (hk.trans h.symm)
        have h3 : ¬ k = k2 := fun h => h2 h.symm
        simp [netUpd, hp, lookupNet_cons, hk, h2, h3]
      · simp [netUpd, hp, lookupNet_cons, hk, ih]

/-- The signed contribution of the transactions of category `c` in month
`m`: top-ups count positively, withdrawals negatively. -/
def signedNetSum (txs : List AssetTransaction) (c m : Nat) : ℚ :=
  ((txs.filter fun tx => txMatches c m tx).map
    fun tx => if tx.isTopUp then tx.amount else -tx.amount).sum

theorem lookupNet_netFold_go (txs : List AssetTransaction) :
    ∀ (acc : List ((Nat × Nat) × ℚ)) (c m : Nat),
      lookupNet (txs.foldl
        (fun acc tx =>
          match tx.transactionDate with
          | none => acc
          | some t =>
            netUpd (tx.category, monthOf t)
              (if tx.isTopUp then tx.amount else -tx.amount) acc) acc) (c, m)
        = lookupNet acc (c, m) + signedNetSum txs c m := by
  induction txs with
  | nil => intro acc c m; simp [signedNetSum]
  | cons tx rest ih =>
    intro acc c m
    rw [List.foldl_cons]
    cases ht : tx.transactionDate with
    | none =>
      have hnm : txMatches c m tx = false := by
        simp [txMatches, ht]
      rw [ih]
      show lookupNet acc (c, m) + signedNetSum rest c m = _
      congr 1
      rw [signedNetSum, signedNetSum, List.filter_cons_of_neg (by simp [hnm])]
    | some t =>
      rw [ih]
      show lookupNet (netUpd (tx.category, monthOf t)
        (if tx.isTopUp then tx.amount else -tx.amount) acc) (c, m)
          + signedNetSum rest c m = _
      rw [lookupNet_netUpd]
      by_cases hmatch : tx.category = c ∧ monthOf t = m
      · have hkey : (tx.category, monthOf t) = (c, m) := by
          rw [hmatch.1, hmatch.2]
        have htm : txMatches c m tx = true := by
          simp [txMatches, ht, hmatch.1, hmatch.2]
        rw [if_pos hkey]
        have hss : signedNetSum (tx :: rest) c m =
            (if tx.isTopUp then tx.amount else -tx.amount)
              + signedNetSum rest c m := by
          rw [signedNetSum, signedNetSum, List.filter_cons_of_pos htm,
            List.map_cons, List.sum_cons]
        rw [hss]
        ring
      · have hkey : ¬ (tx.category, monthOf t) = (c, m) := by
          intro h
          exact hmatch ⟨congrArg Prod.fst h, congrArg Prod.snd h⟩
        have htm : txMatches c m tx = false := by
          simp only [txMatches, ht, Option.any_some]
          rw [Bool.and_eq_false_iff]
          rcases Decidable.not_and_iff_or_not.mp hmatch with h | h
          · exact Or.inl (by simpa using h)
          · exact Or.inr (by simpa using h)
        rw [if_neg hkey]
        have hss : signedNetSum (tx :: rest) c m = signedNetSum rest c m := by
          rw [signedNetSum, signedNetSum,
            List.filter_cons_of_neg (by simp [htm])]
        rw [hss]
        ring

theorem signedNetSum_eq (txs : List AssetTransaction) (c m : Nat) :
    signedNetSum txs c m = topUpSum txs c m - withdrawSum txs c m := by
  induction txs with
  | nil => simp [signedNetSum, topUpSum, withdrawSum]
  | cons tx rest ih =>
    by_cases hm : txMatches c m tx
    · by_cases htu : tx.isTopUp
      · rw [signedNetSum, topUpSum, withdrawSum,
          List.filter_cons_of_pos hm,
          List.filter_cons_of_pos (by simp [hm, htu]),
          List.filter_cons_of_neg (by simp [hm, htu])]
        simp only [List.map_cons, List.sum_cons, if_pos htu]
        rw [signedNetSum, topUpSum, withdrawSum] at ih
        rw [ih]
        ring
      · rw [signedNetSum, topUpSum, withdrawSum,
          List.filter_cons_of_pos hm,
          List.filter_cons_of_neg (by simp [hm, htu]),
          List.filter_cons_of_pos (by simp [hm, htu])]
        simp only [List.map_cons, List.sum_cons, if_neg htu]
        rw [signedNetSum, topUpSum, withdrawSum] at ih
        rw [ih]
        ring
    · rw [signedNetSum, topUpSum, withdrawSum,
        List.filter_cons_of_neg (by simpa using hm),
        List.filter_cons_of_neg (by simp [Bool.and_eq_true]; intro h; exact absurd h (by simpa using hm)),
        List.filter_cons_of_neg (by simp [Bool.and_eq_true]; intro h; exact absurd h (by simpa using hm))]
      rw [signedNetSum, topUpSum, withdrawSum] at ih
      rw [ih]

theorem lookupNet_netFold (txs : List AssetTransaction) (c m : Nat) :
    lookupNet (netFold txs) (c, m) = topUpSum txs c m - withdrawSum txs c m := by
  rw [netFold, lookupNet_netFold_go, signedNetSum_eq, lookupNet_nil]
  ring

/-! ### Performance month-map lemmas -/

theorem perfItems_mem (entries : List AssetControl) (q : Nat × (Nat × ℚ)) :
    q ∈ perfItems entries ↔
      ∃ r ∈ entries, r.controlDate = some q.2.1 ∧
        r.currentTotalValue = q.2.2 ∧ monthOf q.2.1 = q.1 := by
  rw [perfItems, List.mem_filterMap]
  constructor
  · rintro ⟨r, hr, hmap⟩
    cases hd : r.controlDate with
    | none => rw [hd] at hmap; cases hmap
    | some t =>
      rw [hd, Option.map_some'] at hmap
      rw [Option.some_inj] at hmap
      refine ⟨r, (List.mem_insertionSort _).mp hr, ?_, ?_, ?_⟩
      · rw [← hmap, hd]
      · rw [← hmap]
      · rw [← hmap]
  · rintro ⟨r, hr, hd, hv, hm⟩
    refine ⟨r, (List.mem_insertionSort _).mpr hr, ?_⟩
    rw [hd, Option.map_some', Option.some_inj]
    have : q = (q.1, (q.2.1, q.2.2)) := rfl
    rw [this, ← hv, ← hm]

theorem perfMonthFold_coherent (entries : List AssetControl) :
    ∀ p ∈ perfMonthFold entries, p.1 = monthOf p.2.1 := by
  intro p hp
  have spec := foldUpsert_mem_spec tsBetter Prod.fst tsBetter_iff
    (perfItems entries) p hp
  obtain ⟨q, hqf, hq2⟩ := List.mem_map.mp spec.1
  have hqi := List.mem_of_mem_filter hqf
  have hqk : q.1 = p.1 := by
    have := List.of_mem_filter hqf
    simpa using this
  obtain ⟨r, _, _, _, hm⟩ := (perfItems_mem entries q).mp hqi
  rw [← hqk, ← hm, hq2]

instance : IsTrans (Nat × (Nat × ℚ)) (fun a b => a.2.1 < b.2.1) :=
  ⟨fun _ _ _ h h2 => Nat.lt_trans h h2⟩

theorem perfMonthlySeries_chain (entries : List AssetControl) :
    List.Chain' (fun a b : Nat × (Nat × ℚ) => a.2.1 < b.2.1)
      (perfMonthlySeries entries) := by
  have hsorted : List.Sorted (fun a b : Nat × (Nat × ℚ) => a.2.1 ≤ b.2.1)
      (perfMonthlySeries entries) :=
    List.sorted_insertionSort _ (perfMonthFold entries)
  have hnodup : ((perfMonthFold entries).map Prod.fst).Nodup :=
    foldUpsert_map_fst_nodup _ _
  have hkeys : List.Pairwise (fun a b : Nat × (Nat × ℚ) => a.1 ≠ b.1)
      (perfMonthFold entries) := (List.pairwise_map).mp hnodup
  have hts : List.Pairwise (fun a b : Nat × (Nat × ℚ) => a.2.1 ≠ b.2.1)
      (perfMonthFold entries) := by
    refine hkeys.imp_of_mem ?_
    intro a b ha hb hne hts
    exact hne (by
      rw [perfMonthFold_coherent entries a ha,
        perfMonthFold_coherent entries b hb, hts])
  have hts2 : List.Pairwise (fun a b : Nat × (Nat × ℚ) => a.2.1 ≠ b.2.1)
      (perfMonthlySeries entries) :=
    ((List.perm_insertionSort _ _).pairwise_iff
      (fun h h2 => h h2.symm)).mpr hts
  have hlt : List.Pairwise (fun a b : Nat × (Nat × ℚ) => a.2.1 < b.2.1)
      (perfMonthlySeries entries) :=
    (hsorted.and hts2).imp fun h => Nat.lt_of_le_of_ne h.1 h.2
  exact List.chain'_iff_pairwise.mpr hlt

theorem perfMonthlySeries_latest (entries : List AssetControl) :
    ∀ e ∈ perfMonthlySeries entries,
      (∃ r ∈ entries, r.controlDate = some e.2.1 ∧
        r.currentTotalValue = e.2.2 ∧ monthOf e.2.1 = e.1) ∧
      (∀ r ∈ entries, ∀ t : Nat, r.controlDate = some t → monthOf t = e.1 →
        t ≤ e.2.1) := by
  intro e he
  have he2 : e ∈ perfMonthFold entries := (List.mem_insertionSort _).mp he
  have spec := foldUpsert_mem_spec tsBetter Prod.fst tsBetter_iff
    (perfItems entries) e he2
  constructor
  · obtain ⟨q, hqf, hq2⟩ := List.mem_map.mp spec.1
    have hqi := List.mem_of_mem_filter hqf
    have hqk : q.1 = e.1 := by
      have := List.of_mem_filter hqf
      simpa using this
    obtain ⟨r, hr, hd, hv, hm⟩ := (perfItems_mem entries q).mp hqi
    refine ⟨r, hr, ?_, ?_, ?_⟩
    · rw [hd, hq2]
    · rw [hv, hq2]
    · rw [hq2] at hm
      rw [hm, hqk]
  · intro r hr t hd hm
    have hitem : ((monthOf t, (t, r.currentTotalValue)) : Nat × (Nat × ℚ))
        ∈ perfItems entries :=
      (perfItems_mem entries _).mpr ⟨r, hr, hd, rfl, rfl⟩
    have hfil : ((monthOf t, (t, r.currentTotalValue)) : Nat × (Nat × ℚ))
        ∈ (perfItems entries).filter fun q => decide (q.1 = e.1) :=
      List.mem_filter.mpr ⟨hitem, by simpa using hm⟩
    have hmem2 : ((t, r.currentTotalValue) : Nat × ℚ)
        ∈ ((perfItems entries).filter fun q => decide (q.1 = e.1)).map
          Prod.snd :=
      List.mem_map.mpr ⟨_, hfil, rfl⟩
    exact spec.2 _ hmem2

theorem perfMonthlySeries_complete (entries : List AssetControl) :
    ∀ r ∈ entries, ∀ t : Nat, r.controlDate = some t →
      ∃ e ∈ perfMonthlySeries entries, e.1 = monthOf t := by
  intro r hr t hd
  have hitem : ((monthOf t, (t, r.currentTotalValue)) : Nat × (Nat × ℚ))
      ∈ perfItems entries :=
    (perfItems_mem entries _).mpr ⟨r, hr, hd, rfl, rfl⟩
  have hkey : monthOf t ∈ (perfItems entries).map Prod.fst :=
    List.mem_map.mpr ⟨_, hitem, rfl⟩
  obtain ⟨p, hp, hpk⟩ := foldUpsert_complete tsBetter _ _ hkey
  exact ⟨p, (List.mem_insertionSort _).mpr hp, hpk⟩

theorem categoryPerformance_eq (c : Nat) (entries : List AssetControl)
    (distVal : Option ℚ) (txs : List AssetTransaction)
    (cur prev : Nat × (Nat × ℚ))
    (hcur : (perfMonthlySeries entries).getLast? = some cur)
    (hprev : (perfMonthlySeries entries).dropLast.getLast? = some prev) :
    categoryPerformance c entries distVal txs =
      ⟨if prev.2.2 - lookupNet (netFold txs) (c, prev.1) ≠ 0
        then some (((cur.2.2 - lookupNet (netFold txs) (c, cur.1)) -
          (prev.2.2 - lookupNet (netFold txs) (c, prev.1))) /
          (prev.2.2 - lookupNet (netFold txs) (c, prev.1)) * 100)
        else none,
       (match distVal with | some v => some v | none => some cur.2.2),
       some ((cur.2.2 - lookupNet (netFold txs) (c, cur.1)) -
         (prev.2.2 - lookupNet (netFold txs) (c, prev.1)))⟩ := by
  have hne : entries ≠ [] := by
    intro h
    subst h
    rw [show perfMonthlySeries [] = [] from rfl] at hcur
    cases hcur
  have hemp : entries.isEmpty = false := by simpa [List.isEmpty_iff] using hne
  simp only [categoryPerformance, hemp, Bool.false_eq_true, if_false, hcur,
    hprev]

/-- Scenario C of the spec: category snapshots month 0 value 1000 and month
1 value 1200, one month-1 top-up of 150 in the same category (0). -/
def scenarioC : List AssetControl := [⟨some 0, 1000⟩, ⟨some 10000, 1200⟩]

/-- The Scenario C transaction list. -/
def scenarioCtx : List AssetTransaction := [⟨0, some 10001, 150, true⟩]

/-- C3, counterexample: with two same-month snapshots where the later has
the smaller value (timestamps 0 and 5 in month 0, values 1000 then 900),
the calculator reduces month 0 to its LATEST value 900, not its maximum
1000: deltaValue is 1200 − 900 = 300, while the claim's max-of-month rule
would give 1200 − 1000 = 200. -/
theorem c3_counterexample :
    (categoryPerformance 0 [⟨some 0, 1000⟩, ⟨some 5, 900⟩, ⟨some 10000, 1200⟩]
        none []).deltaValue = some 300 ∧
      specMonthMaxValue [⟨some 0, 1000⟩, ⟨some 5, 900⟩, ⟨some 10000, 1200⟩] 0
        = some 1000 ∧
      specMonthMaxValue [⟨some 0, 1000⟩, ⟨some 5, 900⟩, ⟨some 10000, 1200⟩] 1
        = some 1200 ∧
      (1200 : ℚ) - 1000 ≠ 300 := by
  refine ⟨?_, by decide, by decide, by norm_num⟩
  have hcur : (perfMonthlySeries
      [⟨some 0, 1000⟩, ⟨some 5, 900⟩, ⟨some 10000, 1200⟩]).getLast?
      = some (1, (10000, 1200)) := by decide
  have hprev : (perfMonthlySeries
      [⟨some 0, 1000⟩, ⟨some 5, 900⟩, ⟨some 10000, 1200⟩]).dropLast.getLast?
      = some (0, (5, 900)) := by decide
  rw [categoryPerformance_eq 0 _ none [] _ _ hcur hprev]
  show some ((1200 - lookupNet (netFold []) (0, 1))
    - (900 - lookupNet (netFold []) (0, 0))) = some (300 : ℚ)
  rw [show lookupNet (netFold []) (0, 1) = 0 from rfl,
    show lookupNet (netFold []) (0, 0) = 0 from rfl]
  norm_num

/-- C3, amended: the net cash flow of a category/month is the sum of its
top-up amounts minus the sum of its withdrawal amounts; the per-month series
reduces each month to the snapshot with the LATEST timestamp in that month
(not the maximum value) in ascending order; with at least two months,
deltaValue is the difference of the cash-flow-adjusted last two monthly
values, and percentChange is `deltaValue / adjustedPrevious * 100` unless
the adjusted previous value is zero, in which case it is `null`; on Scenario
C this yields percentChange 5% and deltaValue 50. -/
theorem c3_theorem :
    (∀ (txs : List AssetTransaction) (c m : Nat),
        lookupNet (netFold txs) (c, m) =
          topUpSum txs c m - withdrawSum txs c m) ∧
      (∀ entries : List AssetControl,
        List.Chain' (fun a b : Nat × (Nat × ℚ) => a.2.1 < b.2.1)
            (perfMonthlySeries entries) ∧
          ∀ e ∈ perfMonthlySeries entries,
            (∃ r ∈ entries, r.controlDate = some e.2.1 ∧
              r.currentTotalValue = e.2.2 ∧ monthOf e.2.1 = e.1) ∧
            (∀ r ∈ entries, ∀ t : Nat, r.controlDate = some t →
              monthOf t = e.1 → t ≤ e.2.1)) ∧
      (∀ (c : Nat) (entries : List AssetControl) (distVal : Option ℚ)
          (txs : List AssetTransaction) (cur prev : Nat × (Nat × ℚ)),
        (perfMonthlySeries entries).getLast? = some cur →
        (perfMonthlySeries entries).dropLast.getLast? = some prev →
        (categoryPerformance c entries distVal txs).deltaValue =
            some ((cur.2.2 - (topUpSum txs c cur.1 - withdrawSum txs c cur.1))
              - (prev.2.2 -
                (topUpSum txs c prev.1 - withdrawSum txs c prev.1))) ∧
          (categoryPerformance c entries distVal txs).percentChange =
            (if prev.2.2 - (topUpSum txs c prev.1 - withdrawSum txs c prev.1)
                = 0
             then none
             else some
              (((cur.2.2 -
                  (topUpSum txs c cur.1 - withdrawSum txs c cur.1))
                - (prev.2.2 -
                  (topUpSum txs c prev.1 - withdrawSum txs c prev.1)))
              / (prev.2.2 -
                  (topUpSum txs c prev.1 - withdrawSum txs c prev.1))
              * 100))) ∧
      categoryPerformance 0 scenarioC none scenarioCtx =
        ⟨some 5, some 1200, some 50⟩ := by
  refine ⟨lookupNet_netFold, ?_, ?_, ?_⟩
  · intro entries
    exact ⟨perfMonthlySeries_chain entries, perfMonthlySeries_latest entries⟩
  · intro c entries distVal txs cur prev hcur hprev
    rw [categoryPerformance_eq c entries distVal txs cur prev hcur hprev]
    rw [show (⟨if prev.2.2 - lookupNet (netFold txs) (c, prev.1) ≠ 0
        then some (((cur.2.2 - lookupNet (netFold txs) (c, cur.1)) -
          (prev.2.2 - lookupNet (netFold txs) (c, prev.1))) /
          (prev.2.2 - lookupNet (netFold txs) (c, prev.1)) * 100)
        else none,
       (match distVal with | some v => some v | none => some cur.2.2),
       some ((cur.2.2 - lookupNet (netFold txs) (c, cur.1)) -
         (prev.2.2 - lookupNet (netFold txs) (c, prev.1)))⟩ :
        CategoryPerformance).deltaValue =
      some ((cur.2.2 - lookupNet (netFold txs) (c, cur.1)) -
        (prev.2.2 - lookupNet (netFold txs) (c, prev.1))) from rfl]
    simp only [lookupNet_netFold]
    refine ⟨trivial, ?_⟩
    by_cases h : prev.2.2 - (topUpSum txs c prev.1 - withdrawSum txs c prev.1)
        = 0
    · rw [if_pos h, if_neg (fun hh => hh h)]
    · rw [if_neg h, if_pos h]
  · have hcur : (perfMonthlySeries scenarioC).getLast?
        = some (1, (10000, 1200)) := by decide
    have hprev : (perfMonthlySeries scenarioC).dropLast.getLast?
        = some (0, (0, 1000)) := by decide
    rw [categoryPerformance_eq 0 scenarioC none scenarioCtx _ _ hcur hprev]
    rw [show lookupNet (netFold scenarioCtx) (0, (1, (10000, (1200 : ℚ))).1)
        = 150 from rfl,
      show lookupNet (netFold scenarioCtx) (0, (0, (0, (1000 : ℚ))).1)
        = 0 from rfl]
    rw [if_pos (show (1000 : ℚ) - 0 ≠ 0 by norm_num)]
    simp only [CategoryPerformance.mk.injEq]
    refine ⟨by norm_num, trivial, by norm_num⟩

/-- C3, witness: the amended delta formula applied at Scenario C (last two
months (1, ts 10000, 1200) and (0, ts 0, 1000)), plus the latest-of-month
characterization at the month-0 entry of its per-month series. -/
theorem c3_witness :
    (categoryPerformance 0 scenarioC none scenarioCtx).deltaValue =
        some (((1200 : ℚ)
          - (topUpSum scenarioCtx 0 1 - withdrawSum scenarioCtx 0 1))
          - (1000 - (topUpSum scenarioCtx 0 0 - withdrawSum scenarioCtx 0 0))) ∧
      ∃ r ∈ scenarioC, r.controlDate = some 0 ∧
        r.currentTotalValue = 1000 ∧ monthOf 0 = 0 :=
  ⟨((c3_theorem).2.2.1 0 scenarioC none scenarioCtx (1, (10000, 1200))
      (0, (0, 1000)) (by decide) (by decide)).1,
   (((c3_theorem).2.1 scenarioC).2 (0, (0, 1000)) (by decide)).1⟩

theorem length_le_one_of_nodup_alleq {l : List Nat} (hn : l.Nodup)
    (ha : ∀ a ∈ l, ∀ b ∈ l, a = b) : l.length ≤ 1 := by
  cases l with
  | nil => simp
  | cons x t =>
    cases t with
    | nil => simp
    | cons y t2 =>
      exfalso
      rw [List.nodup_cons] at hn
      have hxy : x = y := ha x (by simp) y (by simp)
      exact hn.1 (by rw [hxy]; exact List.mem_cons_self y t2)

/-- C7: when the category's parseable snapshots all fall in one calendar
month (fewer than 2 distinct months, including the no-data case), the
performance calculator returns `percentChange = null` and
`deltaValue = null`, and `currentValue` is the distribution's value if
available, else the latest monthly value, else `null`. -/
theorem c7_theorem (c : Nat) (entries : List AssetControl)
    (distVal : Option ℚ) (txs : List AssetTransaction)
    (hm : ∀ t1 ∈ entries.filterMap (·.controlDate),
      ∀ t2 ∈ entries.filterMap (·.controlDate), monthOf t1 = monthOf t2) :
    (categoryPerformance c entries distVal txs).percentChange = none ∧
      (categoryPerformance c entries distVal txs).deltaValue = none ∧
      (categoryPerformance c entries distVal txs).currentValue =
        (match distVal with
         | some v => some v
         | none => ((perfMonthlySeries entries).getLast?).map (·.2.2)) := by
  have hkeymem : ∀ k ∈ (perfMonthFold entries).map Prod.fst,
      ∃ t ∈ entries.filterMap (·.controlDate), k = monthOf t := by
    intro k hk
    rw [perfMonthFold, foldUpsert_mem_map_fst] at hk
    obtain ⟨q, hq, hqk⟩ := List.mem_map.mp hk
    obtain ⟨r, hr, hd, _, hm2⟩ := (perfItems_mem entries q).mp hq
    exact ⟨q.2.1, List.mem_filterMap.mpr ⟨r, hr, hd⟩, by rw [← hqk, ← hm2]⟩
  have hallkeys : ∀ a ∈ (perfMonthFold entries).map Prod.fst,
      ∀ b ∈ (perfMonthFold entries).map Prod.fst, a = b := by
    intro a ha b hb
    obtain ⟨t1, ht1, ha2⟩ := hkeymem a ha
    obtain ⟨t2, ht2, hb2⟩ := hkeymem b hb
    rw [ha2, hb2]
    exact hm t1 ht1 t2 ht2
  have hlen : (perfMonthlySeries entries).length ≤ 1 := by
    rw [perfMonthlySeries, List.length_insertionSort]
    have := length_le_one_of_nodup_alleq
      (foldUpsert_map_fst_nodup tsBetter (perfItems entries)) hallkeys
    simpa [List.length_map] using this
  by_cases he : entries.isEmpty
  · have : entries = [] := List.isEmpty_iff.mp he
    subst this
    refine ⟨rfl, rfl, ?_⟩
    cases distVal <;> rfl
  · have hemp : entries.isEmpty = false := by simpa using he
    cases hms : perfMonthlySeries entries with
    | nil =>
      simp only [categoryPerformance, hemp, Bool.false_eq_true, if_false, hms]
      refine ⟨rfl, rfl, ?_⟩
      cases distVal <;> simp
    | cons cur tail =>
      have htail : tail = [] := by
        rw [hms] at hlen
        simpa using hlen
      subst htail
      simp only [categoryPerformance, hemp, Bool.false_eq_true, if_false, hms]
      refine ⟨rfl, rfl, ?_⟩
      cases distVal <;> simp

/-- C7, witness: a single parseable snapshot (one month of data) with no
distribution value: both change fields are `null` and the current value
falls back to the latest monthly value. -/
theorem c7_witness :
    (categoryPerformance 0 [⟨some 3, 42⟩] none []).percentChange = none ∧
      (categoryPerformance 0 [⟨some 3, 42⟩] none []).deltaValue = none ∧
      (categoryPerformance 0 [⟨some 3, 42⟩] none []).currentValue =
        (match (none : Option ℚ) with
         | some v => some v
         | none => ((perfMonthlySeries [⟨some 3, 42⟩]).getLast?).map (·.2.2)) :=
  c7_theorem 0 [⟨some 3, 42⟩] none [] (by decide)
